import Mathlib

/-
Shallow embedding of the coug_fgo plotting pipeline core, translated from
src/eval/plots/traj_bench_plot.py and src/eval/plots/traj_plot.py.
Raw identifiers from metric tables are Strings; raw path fragments from
trajectory archives are lists of characters, so that the Python substring
test (key in parent) becomes the contiguous-sublist relation on lists.
Numeric metric values are rationals. File reads that may raise are modelled
with Option. Theorems at the end of the file settle the specification
claims about normalization, ordering, aggregation and error isolation.
-/

namespace CougFGO

/- ALGORITHMS, identical in both scripts: the canonical algorithm catalog,
in display order. -/
def ALGORITHMS : List String := ["FGO", "TM", "EKF", "UKF", "IEKF", "DVL"]

namespace Bench

/- NAME_MAPPING of traj_bench_plot.py: row key to canonical label, in
insertion order. -/
def NAME_MAPPING : List (String × String) :=
  [("global", "FGO"), ("global_tm", "TM"), ("global_ekf", "EKF"),
   ("global_ukf", "UKF"), ("global_iekf", "IEKF"), ("dvl", "DVL")]

/- The four recognized table filenames, first components of METRICS_CONFIG
and exactly the keys of data_store in load_data. -/
def METRIC_FILENAMES : List String :=
  ["benchmark_ape_trans.csv", "benchmark_ape_rot.csv",
   "benchmark_rpe_trans.csv", "benchmark_rpe_rot.csv"]

/- A discovered csv file: its basename and, when pd.read_csv succeeds, the
list of (row key, rmse value) rows in file order; rows = none models a
read that raises. -/
structure TableFile where
  basename : String
  rows : Option (List (String × ℚ))
  deriving DecidableEq

/- label = NAME_MAPPING.get(algo_key, algo_key): alias lookup with fallback
to the raw key. -/
def resolveLabel (key : String) : String :=
  (NAME_MAPPING.lookup key).getD key

/- One row of the iterrows loop: the record appended to the store when the
resolved label passes the catalog membership test, none otherwise. -/
def resolveRow (row : String × ℚ) : Option (String × ℚ) :=
  let label := resolveLabel row.1
  if label ∈ ALGORITHMS then some (label, row.2) else none

/- All records one file contributes: none of them when the read raised. -/
def fileRecords (t : TableFile) : List (String × ℚ) :=
  match t.rows with
  | none => []
  | some rs => rs.filterMap resolveRow

/- One iteration of the file loop of load_data: files whose basename is not
a data_store key are skipped, otherwise the resolved records of the file
are appended to that basename entry of the store. -/
def stepFile (store : String → List (String × ℚ)) (t : TableFile) :
    String → List (String × ℚ) :=
  if t.basename ∈ METRIC_FILENAMES then
    fun k => if k = t.basename then store k ++ fileRecords t else store k
  else store

/- load_data: fold the file loop over the discovered files in discovery
order, starting from the empty store. The store is read at a table
filename; keys outside METRIC_FILENAMES stay empty. -/
def load_data (files : List TableFile) : String → List (String × ℚ) :=
  files.foldl stepFile (fun _ => [])

/- A file counts as one skipped-file diagnostic when its basename passed
the data_store check but its read raised. -/
def isSkipped (t : TableFile) : Bool :=
  decide (t.basename ∈ METRIC_FILENAMES) && t.rows.isNone

def skippedCount (files : List TableFile) : Nat :=
  (files.filter isSkipped).length

/- pandas Series.unique: distinct values in order of first appearance. -/
def pdUnique (l : List String) : List String :=
  l.foldl (fun acc x => if x ∈ acc then acc else acc ++ [x]) []

/- present_algos of generate_plots: catalog order filtered to the labels
appearing in the Algorithm column. -/
def presentAlgos (recs : List (String × ℚ)) : List String :=
  ALGORITHMS.filter (fun a => decide (a ∈ pdUnique (recs.map Prod.fst)))

/- missing_algos of generate_plots. -/
def missingAlgos (recs : List (String × ℚ)) : List String :=
  ALGORITHMS.filter (fun a => decide (a ∉ pdUnique (recs.map Prod.fst)))

/- Stable insertion of a record into a list sorted by category index,
placing the new record after existing records of less or equal key. -/
def insertByKey (key : String → Nat) (x : String × ℚ) :
    List (String × ℚ) → List (String × ℚ)
  | [] => [x]
  | y :: ys =>
    if key y.1 ≤ key x.1 then y :: insertByKey key x ys else x :: y :: ys

/- df.sort_values("Algorithm") after the Algorithm column was made
categorical with categories present_algos: sort records by the index of
their label in present_algos. -/
def sortRecords (recs : List (String × ℚ)) : List (String × ℚ) :=
  let present := presentAlgos recs
  recs.foldl (fun acc x => insertByKey (fun s => present.indexOf s) x acc) []

/- The aggregated data together with the skipped-file diagnostics. -/
structure BenchOutput where
  tables : String → List (String × ℚ)
  skipped : Nat

/- main of traj_bench_plot.py: when the bags directory is absent the script
prints a fatal error and returns before loading anything; otherwise the
aggregation runs over the discovered files. -/
def main_bench (rootExists : Bool) (files : List TableFile) :
    Option BenchOutput :=
  if rootExists then some ⟨load_data files, skippedCount files⟩ else none

end Bench

namespace Traj

/- A trajectory: ordered 3d positions, opaque to the pipeline. -/
abbrev Trajectory := List (Int × Int × Int)

/- NAME_MAPPING of traj_plot.py, in insertion order. -/
def NAME_MAPPING : List (List Char × String) :=
  [("fgo".toList, "FGO"), ("tm".toList, "TM"), ("ekf".toList, "EKF"),
   ("ukf".toList, "UKF"), ("iekf".toList, "IEKF"), ("dvl".toList, "DVL")]

/- The result object loaded from an archive: the reference and estimate
entry names (after Path(...).name) and the contained trajectories. -/
structure ResFile where
  refId : List Char
  estId : List Char
  trajectories : List (List Char × Trajectory)
  deriving DecidableEq

/- A discovered zip archive: its full path, the name of its parent
directory, and the load_res_file outcome (none when loading raises). -/
structure Archive where
  path : List Char
  parentName : List Char
  res : Option ResFile
  deriving DecidableEq

/- The key loop of load_trajectories over an arbitrary alias mapping:
first mapping entry whose key occurs as a contiguous substring of the
parent fragment wins; none when no key occurs. -/
def resolveLabelWith : List (List Char × String) → List Char → Option String
  | [], _ => none
  | (key, mappedName) :: rest, parent =>
    if key <:+: parent then some mappedName else resolveLabelWith rest parent

/- The normalizer as the script runs it, over NAME_MAPPING. -/
def resolveLabel (parent : List Char) : Option String :=
  resolveLabelWith NAME_MAPPING parent

/- The accumulator of load_trajectories: est_trajs and gt_traj. -/
structure TrajState where
  estTrajs : List (String × Trajectory)
  gtTraj : Option Trajectory
  deriving DecidableEq

/- Python dict assignment est_trajs[label] = t: replace the value at an
existing key, or append a new entry. -/
def updateAssoc (l : List (String × Trajectory)) (k : String)
    (v : Trajectory) : List (String × Trajectory) :=
  if (l.lookup k).isSome then
    l.map (fun p => if p.1 = k then (k, v) else p)
  else l ++ [(k, v)]

/- One iteration of the zip loop of load_trajectories, over an arbitrary
alias mapping: skip archives without the ape_trans marker, resolve the
parent directory name, require the resolved label to be in the catalog,
skip archives whose load raises, set the ground truth only when none is
set yet and the reference entry is present, and store the estimated
trajectory under the label, overwriting any earlier one. -/
def stepArchiveWith (mapping : List (List Char × String)) (st : TrajState)
    (z : Archive) : TrajState :=
  if "ape_trans".toList <:+: z.path then
    match resolveLabelWith mapping z.parentName with
    | none => st
    | some label =>
      if label ∈ ALGORITHMS then
        match z.res with
        | none => st
        | some r =>
          let st1 :=
            if st.gtTraj.isNone then
              match r.trajectories.lookup r.refId with
              | some t => { st with gtTraj := some t }
              | none => st
            else st
          match r.trajectories.lookup r.estId with
          | some t => { st1 with estTrajs := updateAssoc st1.estTrajs label t }
          | none => st1
      else st
  else st

/- The loop body as the script runs it, over NAME_MAPPING. -/
def stepArchive : TrajState → Archive → TrajState :=
  stepArchiveWith NAME_MAPPING

/- load_trajectories: fold the loop over the discovered archives in
discovery order, starting from empty est_trajs and no ground truth. -/
def load_trajectories (zips : List Archive) : TrajState :=
  zips.foldl stepArchive ⟨[], none⟩

/- The estimated-trajectory write an archive performs, if any: the label
it resolves to and the estimate it carries, provided every gate of the
loop body passes. -/
def estWrite (z : Archive) : Option (String × Trajectory) :=
  if "ape_trans".toList <:+: z.path then
    match resolveLabel z.parentName with
    | none => none
    | some label =>
      if label ∈ ALGORITHMS then
        match z.res with
        | none => none
        | some r => (r.trajectories.lookup r.estId).map (fun t => (label, t))
      else none
  else none

/- The ground-truth candidate an archive offers, if any: its reference
trajectory, provided every gate of the loop body passes. -/
def gtCandidate (z : Archive) : Option Trajectory :=
  if "ape_trans".toList <:+: z.path then
    match resolveLabel z.parentName with
    | none => none
    | some label =>
      if label ∈ ALGORITHMS then
        match z.res with
        | none => none
        | some r => r.trajectories.lookup r.refId
      else none
  else none

/- main of traj_plot.py: when the bags root is absent the script prints a
fatal error and returns before touching any agent; otherwise every agent
directory is processed. -/
def main_traj (rootExists : Bool) (agents : List (List Archive)) :
    Option (List TrajState) :=
  if rootExists then some (agents.map load_trajectories) else none

end Traj

/- The concrete table of the example scenario in the spec: rows global,
global_tm and unknown_algo with rmse 1.2, 2.0 and 9.9. -/
def apeTransExample : Bench.TableFile :=
  ⟨"benchmark_ape_trans.csv",
   some [("global", 1.2), ("global_tm", 2.0), ("unknown_algo", 9.9)]⟩

section Lemmas

open Bench Traj

/- Folding the file loop from any starting store appends, at every store
key, exactly the records of the matching recognized files, in discovery
order. -/
theorem foldl_stepFile_eq (files : List Bench.TableFile)
    (g : String → List (String × ℚ)) (fname : String) :
    (files.foldl stepFile g) fname =
      g fname ++
        (if fname ∈ METRIC_FILENAMES then
          (((files.filter (fun t => decide (t.basename = fname))).map
            fileRecords).flatten)
        else []) := by
  induction files generalizing g with
  | nil => simp
  | cons t ts ih =>
    rw [List.foldl_cons, ih]
    by_cases hb : t.basename ∈ METRIC_FILENAMES
    · by_cases he : fname = t.basename
      · subst he
        simp [stepFile, hb, List.filter_cons]
      · have : ¬ (t.basename = fname) := fun h => he h.symm
        simp [stepFile, hb, List.filter_cons, this, he]
    · have hne : ∀ h : fname ∈ METRIC_FILENAMES, ¬ (t.basename = fname) := by
        intro h heq
        exact hb (heq ▸ h)
      by_cases hf : fname ∈ METRIC_FILENAMES
      · simp [stepFile, hb, List.filter_cons, hne hf]
      · simp [stepFile, hb, hf]

/- load_data characterization: the table of a recognized filename is the
concatenation, in discovery order, of the resolved records of the files
bearing that name; unrecognized store keys stay empty. -/
theorem load_data_eq (files : List Bench.TableFile) (fname : String) :
    load_data files fname =
      if fname ∈ METRIC_FILENAMES then
        (((files.filter (fun t => decide (t.basename = fname))).map
          fileRecords).flatten)
      else [] := by
  have h := foldl_stepFile_eq files (fun _ => []) fname
  simpa [load_data] using h

/- The loop over an arbitrary mapping returns the image of the first
entry whose key is a contiguous substring of the fragment. -/
theorem resolveLabelWith_eq_find? (m : List (List Char × String))
    (s : List Char) :
    resolveLabelWith m s =
      (m.find? (fun p => decide (p.1 <:+: s))).map Prod.snd := by
  induction m with
  | nil => rfl
  | cons p rest ih =>
    obtain ⟨key, name⟩ := p
    by_cases hk : key <:+: s
    · simp [resolveLabelWith, List.find?, hk]
    · simp [resolveLabelWith, List.find?, hk, ih]

/- The archive normalizer never yields IEKF: the key ekf is iterated
before iekf and is a contiguous substring of iekf, so whenever the iekf
branch could fire the ekf branch has already fired. -/
theorem resolveLabel_ne_IEKF (s : List Char) :
    Traj.resolveLabel s ≠ some "IEKF" := by
  by_cases h1 : ['f', 'g', 'o'] <:+: s
  · simp [Traj.resolveLabel, Traj.resolveLabelWith, Traj.NAME_MAPPING, h1]
  · by_cases h2 : ['t', 'm'] <:+: s
    · simp [Traj.resolveLabel, Traj.resolveLabelWith, Traj.NAME_MAPPING,
        h1, h2]
    · by_cases h3 : ['e', 'k', 'f'] <:+: s
      · simp [Traj.resolveLabel, Traj.resolveLabelWith, Traj.NAME_MAPPING,
          h1, h2, h3]
      · by_cases h4 : ['u', 'k', 'f'] <:+: s
        · simp [Traj.resolveLabel, Traj.resolveLabelWith, Traj.NAME_MAPPING,
            h1, h2, h3, h4]
        · have h5 : ¬ (['i', 'e', 'k', 'f'] <:+: s) := fun hcon =>
            h3 (List.IsInfix.trans (by decide) hcon)
          by_cases h6 : ['d', 'v', 'l'] <:+: s
          · simp [Traj.resolveLabel, Traj.resolveLabelWith, Traj.NAME_MAPPING,
              h1, h2, h3, h4, h5, h6]
          · simp [Traj.resolveLabel, Traj.resolveLabelWith, Traj.NAME_MAPPING,
              h1, h2, h3, h4, h5, h6]

/- A key present after a dict write was present before or is the written
key. -/
theorem mem_keys_updateAssoc {l : List (String × Traj.Trajectory)}
    {k L : String} {v : Traj.Trajectory}
    (h : L ∈ (updateAssoc l k v).map Prod.fst) :
    L ∈ l.map Prod.fst ∨ L = k := by
  unfold updateAssoc at h
  split at h
  · simp only [List.map_map, List.mem_map, Function.comp] at h
    obtain ⟨p, hp, he⟩ := h
    by_cases hpk : p.1 = k
    · right
      simp [hpk] at he
      exact he.symm
    · left
      simp only [hpk, if_false] at he
      exact List.mem_map.mpr ⟨p, hp, he⟩
  · rw [List.map_append] at h
    rcases List.mem_append.mp h with h | h
    · exact Or.inl h
    · right
      simpa using h

/- A key present in est_trajs after one loop iteration was present before,
or is a label the normalizer resolved and the catalog admitted. -/
theorem mem_keys_stepArchiveWith {m : List (List Char × String)}
    {st : TrajState} {z : Traj.Archive} {L : String}
    (h : L ∈ (stepArchiveWith m st z).estTrajs.map Prod.fst) :
    L ∈ st.estTrajs.map Prod.fst ∨
      (resolveLabelWith m z.parentName = some L ∧ L ∈ ALGORITHMS) := by
  unfold stepArchiveWith at h
  by_cases hape : "ape_trans".toList <:+: z.path
  · rw [if_pos hape] at h
    cases hres : resolveLabelWith m z.parentName with
    | none =>
      simp only [hres] at h
      exact Or.inl h
    | some label =>
      simp only [hres] at h
      by_cases halg : label ∈ ALGORITHMS
      · rw [if_pos halg] at h
        cases hr : z.res with
        | none =>
          simp only [hr] at h
          exact Or.inl h
        | some r =>
          simp only [hr] at h
          have hgen : ∀ s1 : TrajState, s1.estTrajs = st.estTrajs →
              L ∈ (match r.trajectories.lookup r.estId with
                    | some t =>
                      { s1 with estTrajs := updateAssoc s1.estTrajs label t }
                    | none => s1).estTrajs.map Prod.fst →
              L ∈ st.estTrajs.map Prod.fst ∨
                (some label = some L ∧ L ∈ ALGORITHMS) := by
            intro s1 hs1 hmem
            cases hlk : r.trajectories.lookup r.estId with
            | none =>
              simp only [hlk] at hmem
              rw [hs1] at hmem
              exact Or.inl hmem
            | some t =>
              simp only [hlk] at hmem
              rcases mem_keys_updateAssoc (l := s1.estTrajs) hmem with hm | hm
              · rw [hs1] at hm
                exact Or.inl hm
              · refine Or.inr ⟨(congrArg some hm).symm, ?_⟩
                rw [hm]
                exact halg
          refine hgen _ ?_ h
          split
          · split <;> rfl
          · rfl
      · rw [if_neg halg] at h
        exact Or.inl h
  · rw [if_neg hape] at h
    exact Or.inl h

/- Every key of est_trajs after the whole scan came from a successfully
resolved, catalog-admitted archive of the scan. -/
theorem keys_load_trajectories_resolved (zips : List Traj.Archive)
    (L : String)
    (h : L ∈ (load_trajectories zips).estTrajs.map Prod.fst) :
    ∃ z ∈ zips, Traj.resolveLabel z.parentName = some L ∧ L ∈ ALGORITHMS := by
  suffices key : ∀ (st : TrajState),
      L ∈ (zips.foldl stepArchive st).estTrajs.map Prod.fst →
      L ∈ st.estTrajs.map Prod.fst ∨
        ∃ z ∈ zips, Traj.resolveLabel z.parentName = some L ∧
          L ∈ ALGORITHMS by
    rcases key ⟨[], none⟩ h with hmem | hex
    · simp at hmem
    · exact hex
  clear h
  induction zips with
  | nil => exact fun st h => Or.inl h
  | cons z zs ih =>
    intro st h
    rw [List.foldl_cons] at h
    rcases ih (stepArchive st z) h with hmem | hex
    · rcases mem_keys_stepArchiveWith hmem with hmem2 | hres
      · exact Or.inl hmem2
      · exact Or.inr ⟨z, List.mem_cons_self z zs, hres.1, hres.2⟩
    · obtain ⟨z2, hz2, hrest⟩ := hex
      exact Or.inr ⟨z2, List.mem_cons_of_mem z hz2, hrest⟩

/- pandas unique keeps exactly the values of the column. -/
theorem mem_pdUnique (a : String) (l : List String) :
    a ∈ pdUnique l ↔ a ∈ l := by
  suffices key : ∀ acc : List String,
      a ∈ l.foldl (fun acc x => if x ∈ acc then acc else acc ++ [x]) acc ↔
        a ∈ acc ∨ a ∈ l by
    simpa [pdUnique] using key []
  induction l with
  | nil => simp
  | cons x xs ih =>
    intro acc
    rw [List.foldl_cons, ih]
    by_cases hx : x ∈ acc
    · rw [if_pos hx]
      constructor
      · rintro (h | h)
        · exact Or.inl h
        · exact Or.inr (List.mem_cons_of_mem x h)
      · rintro (h | h)
        · exact Or.inl h
        · rcases List.mem_cons.mp h with rfl | h2
          · exact Or.inl hx
          · exact Or.inr h2
    · rw [if_neg hx]
      constructor
      · rintro (h | h)
        · rcases List.mem_append.mp h with h2 | h2
          · exact Or.inl h2
          · exact Or.inr (List.mem_cons.mpr (Or.inl (by simpa using h2)))
        · exact Or.inr (List.mem_cons_of_mem x h)
      · rintro (h | h)
        · exact Or.inl (List.mem_append.mpr (Or.inl h))
        · rcases List.mem_cons.mp h with rfl | h2
          · exact Or.inl (List.mem_append.mpr (Or.inr (by simp)))
          · exact Or.inr h2

/- A label occurs in the aggregated table of a recognized filename exactly
when some discovered file of that name contributes a record with it. -/
theorem mem_load_data_fst (a : String) (files : List Bench.TableFile)
    (fname : String) :
    a ∈ (load_data files fname).map Prod.fst ↔
      fname ∈ METRIC_FILENAMES ∧
        ∃ t ∈ files, t.basename = fname ∧
          a ∈ (fileRecords t).map Prod.fst := by
  rw [load_data_eq]
  by_cases h : fname ∈ METRIC_FILENAMES
  · rw [if_pos h]
    simp only [h, true_and, List.mem_map, List.mem_flatten, List.mem_filter,
      decide_eq_true_eq]
    constructor
    · rintro ⟨rec, ⟨L, ⟨⟨t, ⟨⟨ht, hbn⟩, rfl⟩⟩, hrecL⟩⟩, rfl⟩
      exact ⟨t, ht, hbn, ⟨rec, hrecL, rfl⟩⟩
    · rintro ⟨t, ht, hbn, rec, hrec, rfl⟩
      exact ⟨rec, ⟨fileRecords t, ⟨t, ⟨ht, hbn⟩, rfl⟩, hrec⟩, rfl⟩
  · rw [if_neg h]
    simp [h]

/- Replacing the value stored at a key leaves every lookup unchanged
except at that key, which afterwards holds the new value when it was
present at all. -/
theorem lookup_map_replace (l : List (String × Traj.Trajectory))
    (k L : String) (v : Traj.Trajectory) :
    ((l.map (fun p => if p.1 = k then (k, v) else p)).lookup L) =
      if k = L then (if (l.lookup k).isSome then some v else none)
      else l.lookup L := by
  induction l with
  | nil => by_cases h : k = L <;> simp [h]
  | cons p t ih =>
    obtain ⟨a, b⟩ := p
    by_cases hak : a = k
    · subst hak
      have hmap : (((a, b) :: t).map
            (fun p => if p.1 = a then (a, v) else p)) =
          (a, v) :: t.map (fun p => if p.1 = a then (a, v) else p) := by
        simp
      rw [hmap]
      by_cases hLa : L = a
      · subst hLa
        simp
      · have hbeq : (L == a) = false := beq_eq_false_iff_ne.mpr hLa
        have haL : ¬ (a = L) := fun h => hLa h.symm
        rw [List.lookup_cons]
        simp only [hbeq]
        rw [ih, if_neg haL, if_neg haL, List.lookup_cons]
        simp only [hbeq]
    · have hmap : (((a, b) :: t).map
            (fun p => if p.1 = k then (k, v) else p)) =
          (a, b) :: t.map (fun p => if p.1 = k then (k, v) else p) := by
        simp [hak]
      rw [hmap]
      by_cases hLa : L = a
      · subst hLa
        have hkL : ¬ (k = L) := fun h => hak h.symm
        simp [hkL]
      · have hbeq : (L == a) = false := beq_eq_false_iff_ne.mpr hLa
        rw [List.lookup_cons]
        simp only [hbeq]
        rw [ih]
        by_cases hkL : k = L
        · rw [if_pos hkL, if_pos hkL]
          have hka : (k == a) = false :=
            beq_eq_false_iff_ne.mpr (fun h => hak h.symm)
          rw [List.lookup_cons]
          simp only [hka]
        · rw [if_neg hkL, if_neg hkL, List.lookup_cons]
          simp only [hbeq]

/- A dict write changes exactly the lookup at the written key. -/
theorem lookup_updateAssoc (l : List (String × Traj.Trajectory))
    (k L : String) (v : Traj.Trajectory) :
    (Traj.updateAssoc l k v).lookup L =
      if k = L then some v else l.lookup L := by
  unfold Traj.updateAssoc
  cases hl : l.lookup k with
  | some w =>
    rw [if_pos (show (some w).isSome = true from rfl), lookup_map_replace]
    simp [hl]
  | none =>
    rw [if_neg (show ¬ ((none : Option Traj.Trajectory).isSome = true)
          from by simp),
      List.lookup_append]
    by_cases hkL : k = L
    · subst hkL
      simp [hl]
    · have hb : (L == k) = false :=
        beq_eq_false_iff_ne.mpr (fun h => hkL h.symm)
      simp [List.lookup_cons, hb, hkL]

/- The accumulator built before the estimate write of one loop iteration
carries the same est_trajs as the incoming state. -/
theorem estTrajs_gtStage (st : Traj.TrajState) (r : Traj.ResFile) :
    (if st.gtTraj.isNone then
        match r.trajectories.lookup r.refId with
        | some t => { st with gtTraj := some t }
        | none => st
      else st).estTrajs = st.estTrajs := by
  split
  · split <;> rfl
  · rfl

/- When an archive performs the estimated-trajectory write (k, e), the
loop body stores e at k and leaves every other lookup unchanged. -/
theorem lookup_stepArchive_write (st : Traj.TrajState) (z : Traj.Archive)
    (L k : String) (e : Traj.Trajectory)
    (hw : Traj.estWrite z = some (k, e)) :
    (Traj.stepArchive st z).estTrajs.lookup L =
      if k = L then some e else st.estTrajs.lookup L := by
  unfold Traj.estWrite at hw
  unfold Traj.stepArchive Traj.stepArchiveWith
  by_cases hape : "ape_trans".toList <:+: z.path
  · rw [if_pos hape] at hw ⊢
    cases hres : Traj.resolveLabel z.parentName with
    | none =>
      simp only [hres] at hw
      exact absurd hw (by simp)
    | some label =>
      have hresW : Traj.resolveLabelWith Traj.NAME_MAPPING z.parentName =
          some label := hres
      simp only [hres] at hw
      simp only [hresW]
      by_cases halg : label ∈ ALGORITHMS
      · rw [if_pos halg] at hw ⊢
        cases hr : z.res with
        | none =>
          simp only [hr] at hw
          exact absurd hw (by simp)
        | some r =>
          simp only [hr] at hw ⊢
          cases hlk : r.trajectories.lookup r.estId with
          | none =>
            simp only [hlk] at hw
            exact absurd hw (by simp)
          | some t =>
            simp only [hlk] at hw ⊢
            have hkt : label = k ∧ t = e := by
              simpa using hw
            obtain ⟨hk2, ht2⟩ := hkt
            subst hk2
            subst ht2
            rw [estTrajs_gtStage, lookup_updateAssoc]
      · rw [if_neg halg] at hw
        exact absurd hw (by simp)
  · rw [if_neg hape] at hw
    exact absurd hw (by simp)

/- When an archive performs no estimated-trajectory write, the loop body
leaves every est_trajs lookup unchanged. -/
theorem lookup_stepArchive_nowrite (st : Traj.TrajState) (z : Traj.Archive)
    (L : String) (hw : Traj.estWrite z = none) :
    (Traj.stepArchive st z).estTrajs.lookup L =
      st.estTrajs.lookup L := by
  unfold Traj.estWrite at hw
  unfold Traj.stepArchive Traj.stepArchiveWith
  by_cases hape : "ape_trans".toList <:+: z.path
  · rw [if_pos hape] at hw ⊢
    cases hres : Traj.resolveLabel z.parentName with
    | none =>
      have hresW : Traj.resolveLabelWith Traj.NAME_MAPPING z.parentName =
          none := hres
      simp only [hresW]
    | some label =>
      have hresW : Traj.resolveLabelWith Traj.NAME_MAPPING z.parentName =
          some label := hres
      simp only [hres] at hw
      simp only [hresW]
      by_cases halg : label ∈ ALGORITHMS
      · rw [if_pos halg] at hw ⊢
        cases hr : z.res with
        | none => simp only [hr]
        | some r =>
          simp only [hr] at hw ⊢
          cases hlk : r.trajectories.lookup r.estId with
          | none =>
            simp only [hlk]
            rw [estTrajs_gtStage]
          | some t =>
            simp only [hlk] at hw
            exact absurd hw (by simp)
      · rw [if_neg halg]
  · rw [if_neg hape]

/- Archives that never write a given label leave its lookup unchanged
along any fold of the loop body. -/
theorem lookup_foldl_no_write (zs : List Traj.Archive)
    (st : Traj.TrajState) (L : String)
    (hzs : ∀ z ∈ zs, ∀ e, Traj.estWrite z ≠ some (L, e)) :
    (zs.foldl Traj.stepArchive st).estTrajs.lookup L =
      st.estTrajs.lookup L := by
  induction zs generalizing st with
  | nil => rfl
  | cons z zs ih =>
    rw [List.foldl_cons,
      ih (Traj.stepArchive st z)
        (fun z2 h2 => hzs z2 (List.mem_cons_of_mem _ h2))]
    cases hw : Traj.estWrite z with
    | none => exact lookup_stepArchive_nowrite st z L hw
    | some p =>
      obtain ⟨k, e⟩ := p
      rw [lookup_stepArchive_write st z L k e hw]
      have hk : ¬ (k = L) :=
        fun h => hzs z (List.mem_cons_self z zs) e (h ▸ hw)
      rw [if_neg hk]

/- One loop iteration keeps an already chosen ground truth and otherwise
adopts the ground-truth candidate of the archive. -/
theorem gt_stepArchive (st : Traj.TrajState) (z : Traj.Archive) :
    (Traj.stepArchive st z).gtTraj =
      (match st.gtTraj with
       | some t => some t
       | none => Traj.gtCandidate z) := by
  unfold Traj.stepArchive Traj.stepArchiveWith Traj.gtCandidate
  by_cases hape : "ape_trans".toList <:+: z.path
  · rw [if_pos hape, if_pos hape]
    cases hres : Traj.resolveLabel z.parentName with
    | none =>
      have hresW : Traj.resolveLabelWith Traj.NAME_MAPPING z.parentName =
          none := hres
      simp only [hres, hresW]
      cases st.gtTraj <;> rfl
    | some label =>
      have hresW : Traj.resolveLabelWith Traj.NAME_MAPPING z.parentName =
          some label := hres
      simp only [hres, hresW]
      by_cases halg : label ∈ ALGORITHMS
      · rw [if_pos halg, if_pos halg]
        cases hr : z.res with
        | none =>
          simp only [hr]
          cases st.gtTraj <;> rfl
        | some r =>
          simp only [hr]
          cases hgt : st.gtTraj with
          | some t =>
            cases hlk : r.trajectories.lookup r.estId <;> simp [hlk, hgt]
          | none =>
            cases hrf : r.trajectories.lookup r.refId with
            | some tr =>
              cases hlk : r.trajectories.lookup r.estId <;>
                simp [hrf, hlk, hgt]
            | none =>
              cases hlk : r.trajectories.lookup r.estId <;>
                simp [hrf, hlk, hgt]
      · rw [if_neg halg, if_neg halg]
        cases st.gtTraj <;> rfl
  · rw [if_neg hape, if_neg hape]
    cases st.gtTraj <;> rfl

/- Folding the loop from any state: an already chosen ground truth is
kept, otherwise the first candidate of the scanned archives is taken. -/
theorem gt_foldl (zips : List Traj.Archive) (st : Traj.TrajState) :
    (zips.foldl Traj.stepArchive st).gtTraj =
      (match st.gtTraj with
       | some t => some t
       | none => zips.findSome? Traj.gtCandidate) := by
  induction zips generalizing st with
  | nil =>
    rw [List.foldl_nil]
    cases st.gtTraj <;> rfl
  | cons z zs ih =>
    rw [List.foldl_cons, ih]
    cases hgt : st.gtTraj with
    | some t =>
      have h1 := gt_stepArchive st z
      rw [hgt] at h1
      simp [h1]
    | none =>
      have h1 := gt_stepArchive st z
      rw [hgt] at h1
      rw [h1]
      cases hc : Traj.gtCandidate z with
      | some t => simp [List.findSome?_cons, hc]
      | none => simp [List.findSome?_cons, hc]

end Lemmas

/-- C5: the ground truth of the final TrajectorySet is the reference
trajectory of the first archive, in discovery order, that passes every
gate of the loop and whose reference entry resolves; all later archives
leave it unchanged, and the set holds at most one ground truth. -/
theorem c5_first_ground_truth (zips : List Traj.Archive) :
    (Traj.load_trajectories zips).gtTraj =
      zips.findSome? Traj.gtCandidate := by
  have h := gt_foldl zips ⟨[], none⟩
  simpa [Traj.load_trajectories] using h

/-- C4: when two archives of the same agent resolve to the same label with
different estimated trajectories, the trajectory finally stored for that
label is the one of the archive discovered later, whatever was scanned
before, between or after (provided nothing after writes the label again):
last write wins, never the first and never a combination. -/
theorem c4_last_write_wins (pre mid post : List Traj.Archive)
    (z1 z2 : Traj.Archive) (L : String) (e1 e2 : Traj.Trajectory)
    (h1 : Traj.estWrite z1 = some (L, e1))
    (h2 : Traj.estWrite z2 = some (L, e2))
    (hne : e1 ≠ e2)
    (hpost : ∀ z ∈ post, ∀ e, Traj.estWrite z ≠ some (L, e)) :
    (Traj.load_trajectories
        (pre ++ z1 :: mid ++ z2 :: post)).estTrajs.lookup L = some e2 ∧
    (Traj.load_trajectories
        (pre ++ z1 :: mid ++ z2 :: post)).estTrajs.lookup L ≠ some e1 := by
  have hsplit : pre ++ z1 :: mid ++ z2 :: post =
      (pre ++ z1 :: mid) ++ z2 :: post := by
    simp
  have key : (Traj.load_trajectories
      (pre ++ z1 :: mid ++ z2 :: post)).estTrajs.lookup L = some e2 := by
    unfold Traj.load_trajectories
    rw [hsplit, List.foldl_append, List.foldl_cons,
      lookup_foldl_no_write post _ L hpost,
      lookup_stepArchive_write _ z2 L L e2 h2, if_pos rfl]
  refine ⟨key, ?_⟩
  rw [key]
  intro hc
  exact hne (Option.some.inj hc).symm

/-- C4 witness: two concrete archives for the label FGO with estimates
differing in one position; the final stored trajectory is the second. -/
theorem c4_witness :
    Traj.estWrite ⟨"run1_ape_trans.zip".toList, "fgo_a".toList,
        some ⟨"ref".toList, "est".toList,
          [("ref".toList, [(0, 0, 0)]), ("est".toList, [(1, 0, 0)])]⟩⟩ =
      some ("FGO", [(1, 0, 0)]) ∧
    Traj.estWrite ⟨"run2_ape_trans.zip".toList, "fgo_b".toList,
        some ⟨"ref".toList, "est".toList,
          [("ref".toList, [(0, 0, 0)]), ("est".toList, [(2, 0, 0)])]⟩⟩ =
      some ("FGO", [(2, 0, 0)]) ∧
    (Traj.load_trajectories
        [⟨"run1_ape_trans.zip".toList, "fgo_a".toList,
          some ⟨"ref".toList, "est".toList,
            [("ref".toList, [(0, 0, 0)]), ("est".toList, [(1, 0, 0)])]⟩⟩,
         ⟨"run2_ape_trans.zip".toList, "fgo_b".toList,
          some ⟨"ref".toList, "est".toList,
            [("ref".toList, [(0, 0, 0)]),
             ("est".toList, [(2, 0, 0)])]⟩⟩]).estTrajs.lookup "FGO" =
      some [(2, 0, 0)] := by
  refine ⟨by decide, by decide, ?_⟩
  exact (c4_last_write_wins [] [] []
    ⟨"run1_ape_trans.zip".toList, "fgo_a".toList,
      some ⟨"ref".toList, "est".toList,
        [("ref".toList, [(0, 0, 0)]), ("est".toList, [(1, 0, 0)])]⟩⟩
    ⟨"run2_ape_trans.zip".toList, "fgo_b".toList,
      some ⟨"ref".toList, "est".toList,
        [("ref".toList, [(0, 0, 0)]), ("est".toList, [(2, 0, 0)])]⟩⟩
    "FGO" [(1, 0, 0)] [(2, 0, 0)] (by decide) (by decide) (by decide)
    (fun z hz => absurd hz (List.not_mem_nil z))).1

/-- C9: the trajectory-archive normalizer resolves a path fragment to the
canonical label of the first alias-mapping entry, in mapping iteration
order, whose key occurs as a contiguous substring of the fragment, and
yields none when no key occurs; moreover, for any alias mapping, an
archive whose resolved label lies outside the catalog is skipped by the
loop body exactly like an unrecognized one. -/
theorem c9_substring_first_match :
    (∀ s : List Char,
      Traj.resolveLabel s =
        (Traj.NAME_MAPPING.find? (fun p => decide (p.1 <:+: s))).map
          Prod.snd) ∧
    (∀ (m : List (List Char × String)) (st : Traj.TrajState)
        (z : Traj.Archive) (L : String),
      Traj.resolveLabelWith m z.parentName = some L → L ∉ ALGORITHMS →
        Traj.stepArchiveWith m st z = st) := by
  constructor
  · intro s
    exact resolveLabelWith_eq_find? Traj.NAME_MAPPING s
  · intro m st z L hres halg
    unfold Traj.stepArchiveWith
    by_cases hape : "ape_trans".toList <:+: z.path
    · rw [if_pos hape]
      simp only [hres]
      rw [if_neg halg]
    · rw [if_neg hape]

/-- C9 witness: the normalizer resolves a decorated fragment to UKF via
the find? characterization, and a loop body run over a bogus mapping whose
resolved label is outside the catalog leaves the state unchanged. -/
theorem c9_witness :
    Traj.resolveLabel "global_ukf_01".toList = some "UKF" ∧
    Traj.resolveLabelWith [("zz".toList, "ZZZ")] "a_zz_b".toList =
      some "ZZZ" ∧
    "ZZZ" ∉ ALGORITHMS ∧
    Traj.stepArchiveWith [("zz".toList, "ZZZ")] ⟨[], none⟩
        ⟨"x_ape_trans.zip".toList, "a_zz_b".toList, none⟩ = ⟨[], none⟩ := by
  refine ⟨?_, by decide, by decide, ?_⟩
  · exact (c9_substring_first_match.1 "global_ukf_01".toList).trans (by decide)
  · exact c9_substring_first_match.2 [("zz".toList, "ZZZ")] ⟨[], none⟩
      ⟨"x_ape_trans.zip".toList, "a_zz_b".toList, none⟩ "ZZZ"
      (by decide) (by decide)

/-- C2 counterexample: the fragment fgoiekf contains the substring iekf
yet the normalizer resolves it to FGO, not EKF, because the key fgo is
iterated first; this refutes the claim that every fragment containing
iekf resolves to EKF. -/
theorem c2_counterexample :
    ("iekf".toList <:+: "fgoiekf".toList) ∧
    Traj.resolveLabel "fgoiekf".toList = some "FGO" ∧
    Traj.resolveLabel "fgoiekf".toList ≠ some "EKF" := by
  refine ⟨by decide, by decide, by decide⟩

/-- C2 amended: a fragment containing the substring iekf never resolves
to IEKF, and resolves to EKF provided no earlier mapping key (fgo or tm)
also occurs in it, because the alias key ekf is iterated before iekf and
is a substring of any fragment containing iekf; hence no estimated
trajectory is ever stored under the IEKF label by the trajectory
builder. -/
theorem c2_iekf_resolution_amended (s : List Char)
    (h : "iekf".toList <:+: s) :
    Traj.resolveLabel s ≠ some "IEKF" ∧
    (¬ ("fgo".toList <:+: s) → ¬ ("tm".toList <:+: s) →
      Traj.resolveLabel s = some "EKF") ∧
    (∀ zips : List Traj.Archive,
      "IEKF" ∉ (Traj.load_trajectories zips).estTrajs.map Prod.fst) := by
  refine ⟨resolveLabel_ne_IEKF s, ?_, ?_⟩
  · intro h1 h2
    have h1L : ¬ (['f', 'g', 'o'] <:+: s) := h1
    have h2L : ¬ (['t', 'm'] <:+: s) := h2
    have h3L : ['e', 'k', 'f'] <:+: s := List.IsInfix.trans (by decide) h
    simp [Traj.resolveLabel, Traj.resolveLabelWith, Traj.NAME_MAPPING,
      h1L, h2L, h3L]
  · intro zips hmem
    obtain ⟨z, _, hres, _⟩ :=
      keys_load_trajectories_resolved zips "IEKF" hmem
    exact resolveLabel_ne_IEKF z.parentName hres

/-- C2 witness: a concrete fragment containing iekf and no earlier key
resolves to EKF, and the empty scan stores nothing under IEKF. -/
theorem c2_witness :
    ("iekf".toList <:+: "run_iekf_01".toList) ∧
    Traj.resolveLabel "run_iekf_01".toList = some "EKF" ∧
    "IEKF" ∉ (Traj.load_trajectories []).estTrajs.map Prod.fst := by
  refine ⟨by decide, ?_, ?_⟩
  · exact (c2_iekf_resolution_amended "run_iekf_01".toList (by decide)).2.1
      (by decide) (by decide)
  · exact (c2_iekf_resolution_amended "run_iekf_01".toList (by decide)).2.2 []

/-- C7: for an input holding one benchmark_ape_trans.csv table with rows
global (rmse 1.2), global_tm (rmse 2.0) and unknown_algo (rmse 9.9), the
aggregated APE Translation table is exactly [(FGO, 1.2), (TM, 2.0)] in
that order, also after the categorical sort handed to rendering, with
present algorithms [FGO, TM] and missing algorithms [EKF, UKF, IEKF, DVL]. -/
theorem c7_example_scenario :
    Bench.load_data [apeTransExample] "benchmark_ape_trans.csv" =
      [("FGO", 1.2), ("TM", 2.0)] ∧
    Bench.sortRecords
        (Bench.load_data [apeTransExample] "benchmark_ape_trans.csv") =
      [("FGO", 1.2), ("TM", 2.0)] ∧
    Bench.presentAlgos
        (Bench.load_data [apeTransExample] "benchmark_ape_trans.csv") =
      ["FGO", "TM"] ∧
    Bench.missingAlgos
        (Bench.load_data [apeTransExample] "benchmark_ape_trans.csv") =
      ["EKF", "UKF", "IEKF", "DVL"] := by
  exact ⟨rfl, rfl, by decide, by decide⟩

/-- C1 counterexample: the row key FGO equals no key of the alias mapping,
yet its row contributes a MetricRecord, because the mapping lookup falls
back to the raw key and FGO is a catalog label. This refutes the claim
that a row whose key equals no mapping key contributes no record. -/
theorem c1_counterexample :
    List.lookup "FGO" Bench.NAME_MAPPING = none ∧
    Bench.load_data [⟨"benchmark_ape_trans.csv", some [("FGO", 1)]⟩]
        "benchmark_ape_trans.csv" = [("FGO", 1)] := by
  refine ⟨?_, ?_⟩ <;> decide

/-- C1 amended: a metric-table row produces a MetricRecord exactly when
its key equals a key of the alias mapping, or the key is itself already a
catalog label: the alias lookup falls back to the raw key, which the
catalog membership gate then admits. A row whose key neither equals a
mapping key nor is a catalog label contributes no record. -/
theorem c1_exact_match_amended (k : String) (v : ℚ) :
    (Bench.resolveRow (k, v)).isSome = true ↔
      ((Bench.NAME_MAPPING.lookup k).isSome = true ∨ k ∈ ALGORITHMS) := by
  simp only [Bench.resolveRow, Bench.resolveLabel, Bench.NAME_MAPPING,
    List.lookup]
  repeat' split
  all_goals simp_all [ALGORITHMS]

/-- C3: for every metric kind, the label sequence handed to rendering is
the catalog order restricted to the labels present in the records of that
kind, and this sequence is unchanged under any permutation of the
discovered input files. -/
theorem c3_catalog_order_determinism (files files2 : List Bench.TableFile)
    (fname : String) (hp : files.Perm files2) :
    Bench.presentAlgos (Bench.load_data files fname) =
      ALGORITHMS.filter
        (fun a => decide (a ∈ (Bench.load_data files fname).map Prod.fst)) ∧
    Bench.presentAlgos (Bench.load_data files fname) =
      Bench.presentAlgos (Bench.load_data files2 fname) := by
  constructor
  · unfold Bench.presentAlgos
    apply List.filter_congr
    intro a _
    rw [decide_eq_decide]
    exact mem_pdUnique a _
  · unfold Bench.presentAlgos
    apply List.filter_congr
    intro a _
    rw [decide_eq_decide, mem_pdUnique, mem_pdUnique,
      mem_load_data_fst, mem_load_data_fst]
    constructor
    · rintro ⟨hf, t, ht, hrest⟩
      exact ⟨hf, t, hp.mem_iff.mp ht, hrest⟩
    · rintro ⟨hf, t, ht, hrest⟩
      exact ⟨hf, t, hp.mem_iff.mpr ht, hrest⟩

/-- C3 witness: two concrete files listed in either order yield the same
catalog-ordered label sequence. -/
theorem c3_witness :
    ([⟨"benchmark_ape_trans.csv", some [("global", 1)]⟩,
      ⟨"benchmark_ape_trans.csv", some [("global_ekf", 2)]⟩] :
        List Bench.TableFile).Perm
      [⟨"benchmark_ape_trans.csv", some [("global_ekf", 2)]⟩,
       ⟨"benchmark_ape_trans.csv", some [("global", 1)]⟩] ∧
    Bench.presentAlgos (Bench.load_data
        [⟨"benchmark_ape_trans.csv", some [("global", 1)]⟩,
         ⟨"benchmark_ape_trans.csv", some [("global_ekf", 2)]⟩]
        "benchmark_ape_trans.csv") =
      Bench.presentAlgos (Bench.load_data
        [⟨"benchmark_ape_trans.csv", some [("global_ekf", 2)]⟩,
         ⟨"benchmark_ape_trans.csv", some [("global", 1)]⟩]
        "benchmark_ape_trans.csv") :=
  ⟨List.Perm.swap _ _ _,
   (c3_catalog_order_determinism _ _ "benchmark_ape_trans.csv"
      (List.Perm.swap _ _ _)).2⟩

/-- C6: one unreadable table file among readable ones leaves every
aggregated metric table exactly as if only the readable files were
present, and contributes exactly one skipped-file diagnostic. -/
theorem c6_isolation (l1 l2 : List Bench.TableFile) (bad : Bench.TableFile)
    (hb : bad.rows = none) (hn : bad.basename ∈ Bench.METRIC_FILENAMES)
    (hv : ∀ t ∈ l1 ++ l2, t.rows ≠ none) :
    (∀ fname, Bench.load_data (l1 ++ bad :: l2) fname =
        Bench.load_data (l1 ++ l2) fname) ∧
    Bench.skippedCount (l1 ++ bad :: l2) = 1 := by
  constructor
  · intro fname
    rw [load_data_eq, load_data_eq]
    by_cases h : fname ∈ Bench.METRIC_FILENAMES
    · rw [if_pos h, if_pos h]
      have hfr : Bench.fileRecords bad = [] := by
        simp [Bench.fileRecords, hb]
      by_cases hpb : bad.basename = fname
      · simp [List.filter_append, List.filter_cons, hpb, hfr]
      · simp [List.filter_append, List.filter_cons, hpb]
    · rw [if_neg h, if_neg h]
  · have hsb : Bench.isSkipped bad = true := by
      simp [Bench.isSkipped, hb, hn]
    have h1 : l1.filter Bench.isSkipped = [] := by
      rw [List.filter_eq_nil_iff]
      intro t ht
      have hrows : t.rows.isNone = false := by
        cases hrt : t.rows with
        | none => exact absurd hrt (hv t (List.mem_append_left l2 ht))
        | some rs => rfl
      simp [Bench.isSkipped, hrows]
    have h2 : l2.filter Bench.isSkipped = [] := by
      rw [List.filter_eq_nil_iff]
      intro t ht
      have hrows : t.rows.isNone = false := by
        cases hrt : t.rows with
        | none => exact absurd hrt (hv t (List.mem_append_right l1 ht))
        | some rs => rfl
      simp [Bench.isSkipped, hrows]
    unfold Bench.skippedCount
    rw [List.filter_append, List.filter_cons]
    simp [h1, h2, hsb]

/-- C6 witness: one readable APE translation table plus an unreadable APE
rotation table aggregate exactly as the readable table alone, with one
skipped-file diagnostic. -/
theorem c6_witness :
    (⟨"benchmark_ape_rot.csv", none⟩ : Bench.TableFile).rows = none ∧
    Bench.load_data
        [⟨"benchmark_ape_trans.csv", some [("global", 1)]⟩,
         ⟨"benchmark_ape_rot.csv", none⟩] "benchmark_ape_trans.csv" =
      Bench.load_data [⟨"benchmark_ape_trans.csv", some [("global", 1)]⟩]
        "benchmark_ape_trans.csv" ∧
    Bench.skippedCount
        [⟨"benchmark_ape_trans.csv", some [("global", 1)]⟩,
         ⟨"benchmark_ape_rot.csv", none⟩] = 1 := by
  refine ⟨rfl, ?_, ?_⟩
  · exact (c6_isolation [⟨"benchmark_ape_trans.csv", some [("global", 1)]⟩]
      [] ⟨"benchmark_ape_rot.csv", none⟩ rfl (by decide) (by decide)).1
      "benchmark_ape_trans.csv"
  · exact (c6_isolation [⟨"benchmark_ape_trans.csv", some [("global", 1)]⟩]
      [] ⟨"benchmark_ape_rot.csv", none⟩ rfl (by decide) (by decide)).2

/-- C8: every record of every aggregated metric table carries a label of
the catalog, and every estimated-trajectory key of every built
TrajectorySet is a label of the catalog: no unrecognized label survives
into the output handed to rendering. -/
theorem c8_no_unrecognized_label :
    (∀ (files : List Bench.TableFile) (fname : String) (rec : String × ℚ),
        rec ∈ Bench.load_data files fname → rec.1 ∈ ALGORITHMS) ∧
    (∀ (zips : List Traj.Archive) (L : String),
        L ∈ (Traj.load_trajectories zips).estTrajs.map Prod.fst →
          L ∈ ALGORITHMS) := by
  constructor
  · intro files fname rec hrec
    rw [load_data_eq] at hrec
    by_cases h : fname ∈ Bench.METRIC_FILENAMES
    · rw [if_pos h] at hrec
      rw [List.mem_flatten] at hrec
      obtain ⟨recs, hrecs, hmem⟩ := hrec
      rw [List.mem_map] at hrecs
      obtain ⟨t, _, rfl⟩ := hrecs
      unfold Bench.fileRecords at hmem
      cases hrt : t.rows with
      | none =>
        rw [hrt] at hmem
        simp at hmem
      | some rs =>
        rw [hrt] at hmem
        rw [List.mem_filterMap] at hmem
        obtain ⟨row, _, hres⟩ := hmem
        unfold Bench.resolveRow at hres
        by_cases halg : Bench.resolveLabel row.1 ∈ ALGORITHMS
        · rw [if_pos halg] at hres
          cases hres
          exact halg
        · rw [if_neg halg] at hres
          cases hres
    · rw [if_neg h] at hrec
      simp at hrec
  · intro zips L h
    obtain ⟨z, _, _, halg⟩ := keys_load_trajectories_resolved zips L h
    exact halg

/-- C8 witness: a concrete table record and a concrete stored trajectory
key both lie in the catalog. -/
theorem c8_witness :
    (("FGO", (1 : ℚ)) ∈ Bench.load_data
        [⟨"benchmark_ape_trans.csv", some [("global", 1)]⟩]
        "benchmark_ape_trans.csv") ∧
    ("FGO" ∈ ALGORITHMS) ∧
    ("FGO" ∈ (Traj.load_trajectories
        [⟨"run1_ape_trans.zip".toList, "fgo_a".toList,
          some ⟨"ref".toList, "est".toList,
            [("ref".toList, [(0, 0, 0)]),
             ("est".toList, [(1, 0, 0)])]⟩⟩]).estTrajs.map Prod.fst) := by
  have hmem : ("FGO", (1 : ℚ)) ∈ Bench.load_data
      [⟨"benchmark_ape_trans.csv", some [("global", 1)]⟩]
      "benchmark_ape_trans.csv" := by
    exact List.mem_singleton.mpr rfl
  have hmem2 : "FGO" ∈ (Traj.load_trajectories
      [⟨"run1_ape_trans.zip".toList, "fgo_a".toList,
        some ⟨"ref".toList, "est".toList,
          [("ref".toList, [(0, 0, 0)]),
           ("est".toList, [(1, 0, 0)])]⟩⟩]).estTrajs.map Prod.fst := by
    exact List.mem_singleton.mpr rfl
  refine ⟨hmem, ?_, hmem2⟩
  exact c8_no_unrecognized_label.1
    [⟨"benchmark_ape_trans.csv", some [("global", 1)]⟩]
    "benchmark_ape_trans.csv" ("FGO", (1 : ℚ)) hmem

/-- C10: in both scripts the pipeline yields no output exactly when the
input root directory is absent; when the root exists the pipeline always
yields an output, whatever the artifacts hold, so root absence is the only
hard failure. -/
theorem c10_fatal_root (b : Bool) (files : List Bench.TableFile)
    (agents : List (List Traj.Archive)) :
    (Bench.main_bench b files = none ↔ b = false) ∧
    (Traj.main_traj b agents = none ↔ b = false) := by
  cases b <;> simp [Bench.main_bench, Traj.main_traj]

end CougFGO
